import Mathlib

/-!
Verification development for a structural pattern-matching engine over
symbolic expression trees (symbols, operations, dot/plus/star wildcards),
with matching, substitution application, and constraint evaluation.

The constraint component is embedded directly from
`patternmatcher/constraints.py`.  The expression / matcher / substitution
component (`patternmatcher/expressions.py`, `patternmatcher/functions.py`)
is not part of the available sources, so those definitions are modelled
from the specification (sections 3, 4.1 and 4.2), restricted to the
fragment exercised by the available tests: symbols, variadic
non-commutative non-associative operations, and unnamed or named
dot/plus/star wildcards.
-/

/-- Wildcard kinds (spec section 3): dot matches exactly one expression,
plus a span of at least one, star a possibly empty span. -/
inductive WKind where
  | dot
  | plus
  | star
deriving DecidableEq

/-- Modelled from the spec: the expression tree of spec section 3 for the
fragment without commutative/associative/one-identity flags.  `sym` is a
named argument-less leaf, `op` a named variadic operation with an ordered
child list, and `wc` a wildcard, optionally named (a named wildcard is a
Variable whose binding is recorded in substitutions). -/
inductive Expr where
  | sym (name : String)
  | op (name : String) (args : List Expr)
  | wc (name : Option String) (kind : WKind)

mutual

/-- Structural (boolean) equality of expressions. -/
def beqE : Expr → Expr → Bool
  | .sym a, .sym b => a == b
  | .op a as, .op b bs => a == b && beqL as bs
  | .wc n1 k1, .wc n2 k2 => n1 == n2 && k1 == k2
  | _, _ => false

/-- Structural (boolean) equality of expression lists. -/
def beqL : List Expr → List Expr → Bool
  | [], [] => true
  | a :: as, b :: bs => beqE a b && beqL as bs
  | _, _ => false

end

mutual

theorem beqE_iff : ∀ (a b : Expr), beqE a b = true ↔ a = b
  | .sym _, .sym _ => by simp [beqE]
  | .op _ as, .op _ bs => by simp [beqE, beqL_iff as bs]
  | .wc _ _, .wc _ _ => by simp [beqE]
  | .sym _, .op _ _ => by simp [beqE]
  | .sym _, .wc _ _ => by simp [beqE]
  | .op _ _, .sym _ => by simp [beqE]
  | .op _ _, .wc _ _ => by simp [beqE]
  | .wc _ _, .sym _ => by simp [beqE]
  | .wc _ _, .op _ _ => by simp [beqE]

theorem beqL_iff : ∀ (as bs : List Expr), beqL as bs = true ↔ as = bs
  | [], [] => by simp [beqL]
  | a :: as, b :: bs => by simp [beqL, beqE_iff a b, beqL_iff as bs]
  | [], _ :: _ => by simp [beqL]
  | _ :: _, [] => by simp [beqL]

end

instance : DecidableEq Expr := fun a b => decidable_of_iff _ (beqE_iff a b)

/-- A bound value in a substitution: a single expression (dot variables)
or an ordered sequence of expressions (plus/star variables). -/
inductive Binding where
  | single (e : Expr)
  | seq (es : List Expr)
deriving DecidableEq

/-- Modelled from the spec: a Substitution is an ordered mapping from
variable name to bound value (spec section 3), kept as an association
list in insertion order. -/
abbrev Substitution := List (String × Binding)

/-- Lookup of a variable name in a substitution. -/
def slookup : Substitution → String → Option Binding
  | [], _ => none
  | (m, b) :: σ, n => if m = n then some b else slookup σ n

/-- Consistency-checked extension of a substitution: a rebinding attempt
for an already-bound name succeeds only with an equal value (spec
section 3, Substitution invariant); a fresh name is appended. -/
def extend (σ : Substitution) (n : String) (b : Binding) : Option Substitution :=
  match slookup σ n with
  | some b' => if b' = b then some σ else none
  | none => some (σ ++ [(n, b)])

/-- The candidate span lengths a wildcard of a given kind may consume out
of `total` available expressions, shortest first (spec section 4.1:
the leftmost wildcard tries shortest-to-longest spans first). -/
def spanLengths (k : WKind) (total : Nat) : List Nat :=
  match k with
  | .dot => [1]
  | .plus => (List.range total).map (fun i => i + 1)
  | .star => List.range (total + 1)

/-- The value a wildcard binds for a consumed span: dot variables bind the
single expression itself, plus/star variables bind the span as a
sequence. -/
def mkBinding (k : WKind) (span : List Expr) : Binding :=
  match k, span with
  | .dot, [e] => .single e
  | _, _ => .seq span

/-- Concatenation of the results of `f` over a list: the enumeration of
the alternatives of a backtracking search, in deterministic order. -/
def listJoinMap (f : α → List β) : List α → List β
  | [] => []
  | a :: as => f a ++ listJoinMap f as

mutual

/-- Modelled from the spec: matching one expression against one pattern
(spec section 4.1, by case on the pattern node).  A symbol pattern
requires an equal symbol; an operation pattern requires the same head and
sequence-matches the children; an unnamed wildcard matches anything
binding nothing; a named dot variable binds the expression itself, and a
named plus/star variable matching a lone position binds the expression
wrapped as a one-element sequence; bindings are consistency-checked
against the accumulated substitution. -/
def matchOne (e p : Expr) (σ : Substitution) : List Substitution :=
  match p with
  | .sym m =>
    match e with
    | .sym m' => if m' = m then [σ] else []
    | _ => []
  | .op m pargs =>
    match e with
    | .op m' eargs => if m' = m then matchSeq eargs pargs σ else []
    | _ => []
  | .wc name k =>
    match name with
    | none => [σ]
    | some n =>
      match extend σ n (mkBinding k [e]) with
      | some σ' => [σ']
      | none => []

/-- Modelled from the spec: the sequence-partitioning step of spec
section 4.1.  `matchSeq es ps σ` enumerates, left to right, every way to
carve the expression children `es` into contiguous spans consumed by the
pattern children `ps`: each wildcard consumes a span of an allowed
length (shortest first; named wildcards bind the span,
consistency-checked), and every other pattern child consumes exactly one
expression child recursively matched against it; the accumulating
substitution is threaded depth-first through the positions. -/
def matchSeq (es ps : List Expr) (σ : Substitution) : List Substitution :=
  match ps with
  | [] => if es.isEmpty then [σ] else []
  | p :: ps' =>
    match p with
    | .wc name k =>
      listJoinMap
        (fun ℓ =>
          if ℓ ≤ es.length then
            match name with
            | none => matchSeq (es.drop ℓ) ps' σ
            | some n =>
              match extend σ n (mkBinding k (es.take ℓ)) with
              | some σ' => matchSeq (es.drop ℓ) ps' σ'
              | none => []
          else [])
        (spanLengths k es.length)
    | _ =>
      match es with
      | e :: es' => listJoinMap (fun σ' => matchSeq es' ps' σ') (matchOne e p σ)
      | [] => []

end

/-- Modelled from the spec: `match(expression, pattern)` produces the
finite sequence of satisfying substitutions, starting from the empty
substitution (spec section 4.1). -/
def matchExpr (e p : Expr) : List Substitution :=
  matchOne e p []

/-- The result of substitution application: a single expression, or the
sequence of expressions a sequence-bound variable expands to (spec
section 4.2). -/
inductive SubstResult where
  | single (e : Expr)
  | multiple (es : List Expr)
deriving DecidableEq

/-- Splicing a substitution result into a surrounding child list: a
single expression is inlined as one child, a sequence binding is spliced
in place as multiple children (spec section 4.2). -/
def spliceResult : SubstResult → List Expr
  | .single e => [e]
  | .multiple es => es

mutual

/-- Modelled from the spec: `substitute(pattern, substitution)` of spec
section 4.2, returning the result together with the `did_replace` flag.
A named variable present in the substitution is replaced by its bound
value; a variable with no entry, an unnamed wildcard and a symbol are
returned unchanged; an operation with at least one replaced child is
rebuilt with the new (spliced) child list, and otherwise the original
node is returned with `did_replace = false`. -/
def substitute : Expr → Substitution → SubstResult × Bool
  | .sym s, _ => (.single (.sym s), false)
  | .wc none k, _ => (.single (.wc none k), false)
  | .wc (some n) k, σ =>
    match slookup σ n with
    | some (.single e) => (.single e, true)
    | some (.seq es) => (.multiple es, true)
    | none => (.single (.wc (some n) k), false)
  | .op m args, σ =>
    let ra := substituteList args σ
    match ra.2 with
    | true => (.single (.op m ra.1), true)
    | false => (.single (.op m args), false)

/-- Substitution application to a child list, splicing sequence bindings
into the surrounding list and or-ing the `did_replace` flags. -/
def substituteList : List Expr → Substitution → List Expr × Bool
  | [], _ => ([], false)
  | p :: rest, σ =>
    let hd := substitute p σ
    let r := substituteList rest σ
    (spliceResult hd.1 ++ r.1, hd.2 || r.2)

end

/-- Flattening a one-element sequence result to its sole element (the
normalization the round-trip property applies to the substituted
pattern). -/
def flattenResult : SubstResult → SubstResult
  | .multiple [e] => .single e
  | r => r

mutual

/-- The names of the named wildcards (variables) of an expression, in
pre-order. -/
def namedVars : Expr → List String
  | .sym _ => []
  | .wc none _ => []
  | .wc (some n) _ => [n]
  | .op _ args => namedVarsList args

/-- The names of the named wildcards of the expressions of a list. -/
def namedVarsList : List Expr → List String
  | [] => []
  | e :: es => namedVars e ++ namedVarsList es

end

mutual

/-- Whether every wildcard of an expression is named. -/
def allNamed : Expr → Bool
  | .sym _ => true
  | .wc none _ => false
  | .wc (some _) _ => true
  | .op _ args => allNamedList args

/-- Whether every wildcard of every expression of a list is named. -/
def allNamedList : List Expr → Bool
  | [] => true
  | e :: es => allNamed e && allNamedList es

end

mutual

/-- `is_constant` (spec section 3): a subtree is constant when it
contains no wildcard. -/
def isConstant : Expr → Bool
  | .sym _ => true
  | .wc _ _ => false
  | .op _ args => isConstantList args

/-- Whether every expression of a list is constant. -/
def isConstantList : List Expr → Bool
  | [] => true
  | e :: es => isConstant e && isConstantList es

end

mutual

/-- Whether the expression `t` occurs as a subterm of an expression. -/
def containsE (t e : Expr) : Bool :=
  (e = t) ||
    match e with
    | .op _ args => containsL t args
    | _ => false

/-- Whether the expression `t` occurs as a subterm of an expression of a
list. -/
def containsL (t : Expr) : List Expr → Bool
  | [] => false
  | e :: es => containsE t e || containsL t es

end

/-- Whether the expression `t` occurs as a subterm of a substitution
result. -/
def resultContains (t : Expr) (r : SubstResult) : Bool :=
  containsL t (spliceResult r)

/-- C2: matching `f(a,b,c)` against `f(x___, y___)` yields exactly the
four contiguous splits in shortest-`x`-first order, and the plus-variant
`f(x__, y__)` yields exactly the two splits with both spans nonempty. -/
theorem sequenceSplitsComplete :
    matchExpr (.op "f" [.sym "a", .sym "b", .sym "c"])
        (.op "f" [.wc (some "x") .star, .wc (some "y") .star]) =
      [[("x", .seq []), ("y", .seq [.sym "a", .sym "b", .sym "c"])],
       [("x", .seq [.sym "a"]), ("y", .seq [.sym "b", .sym "c"])],
       [("x", .seq [.sym "a", .sym "b"]), ("y", .seq [.sym "c"])],
       [("x", .seq [.sym "a", .sym "b", .sym "c"]), ("y", .seq [])]] ∧
    matchExpr (.op "f" [.sym "a", .sym "b", .sym "c"])
        (.op "f" [.wc (some "x") .plus, .wc (some "y") .plus]) =
      [[("x", .seq [.sym "a"]), ("y", .seq [.sym "b", .sym "c"])],
       [("x", .seq [.sym "a", .sym "b"]), ("y", .seq [.sym "c"])]] := by
  constructor <;> rfl

/-- C3: a dot variable repeated in a pattern must bind equal values:
matching `f(a,b)` against `f(x_, x_)` yields nothing, while matching
`f(a,a)` against it yields exactly the substitution binding `x` to
`a`. -/
theorem repeatedVariableConsistency :
    matchExpr (.op "f" [.sym "a", .sym "b"])
        (.op "f" [.wc (some "x") .dot, .wc (some "x") .dot]) = [] ∧
    matchExpr (.op "f" [.sym "a", .sym "a"])
        (.op "f" [.wc (some "x") .dot, .wc (some "x") .dot]) =
      [[("x", .single (.sym "a"))]] := by
  constructor <;> rfl

/-- The parameter kinds of a host-language callable's signature, as
distinguished by `CustomConstraint.__init__`. -/
inductive ParamKind where
  | positionalOnly
  | positionalOrKeyword
  | varPositional
  | keywordOnly
  | varKeyword
deriving DecidableEq

/-- A declared parameter of a predicate: its name and kind. -/
structure PyParam where
  name : String
  kind : ParamKind
deriving DecidableEq

/-- Insertion into an insertion-ordered set of names. -/
def addName (vars : List String) (n : String) : List String :=
  if n ∈ vars then vars else vars ++ [n]

/-- The signature-inspection loop of `CustomConstraint.__init__`:
positional-or-keyword and keyword-only parameters are collected as
required variable names, a var-keyword parameter sets `allow_any`, a
positional-only parameter raises `ValueError`, and a var-positional
parameter is ignored. -/
def ccInitLoop (allowAny : Bool) (vars : List String) :
    List PyParam → Except String (Bool × List String)
  | [] => .ok (allowAny, vars)
  | p :: rest =>
    match p.kind with
    | .positionalOrKeyword => ccInitLoop allowAny (addName vars p.name) rest
    | .keywordOnly => ccInitLoop allowAny (addName vars p.name) rest
    | .varKeyword => ccInitLoop true vars rest
    | .positionalOnly => .error "constraint cannot have positional-only arguments"
    | .varPositional => ccInitLoop allowAny vars rest

/-- `CustomConstraint.__init__`, applied to the declared parameter list
of the wrapped predicate: returns the `(allow_any, variables)` state or
the raised `ValueError` message. -/
def customConstraintInit (params : List PyParam) : Except String (Bool × List String) :=
  ccInitLoop false [] params

/-- The non-multi constraints: `EqualVariablesConstraint` stores its
variable names as a plain Python `set`; `CustomConstraint` is identified
by the wrapped predicate object (its equality and hash are the
predicate's). -/
inductive BC where
  | equalVariables (vs : List String)
  | custom (id : Nat)
deriving DecidableEq

/-- `hash()` applied to a plain (non-frozen) Python `set`: sets do not
implement `__hash__`, so this raises `TypeError` for every set. -/
def pySetHash (_xs : List α) : Except Unit Nat :=
  .error ()

/-- The hash of a constraint: `EqualVariablesConstraint.__hash__` returns
`hash(self.variables)` where `variables` is a plain set (so it raises
`TypeError`); `CustomConstraint.__hash__` returns the hash of the wrapped
predicate object. -/
def BC.pyHash : BC → Except Unit Nat
  | .equalVariables vs => pySetHash vs
  | .custom id => .ok id

/-- `set.add`: the added element is hashed (raising `TypeError` when it
is unhashable) and inserted unless already present.  The set is kept as
a duplicate-free list in insertion order. -/
def pySetAdd (s : List BC) (c : BC) : Except Unit (List BC) :=
  match c.pyHash with
  | .error _ => .error ()
  | .ok _ => .ok (if c ∈ s then s else s ++ [c])

/-- `set.update`: every element of the added collection is hashed and
inserted in turn. -/
def pySetUpdate (s : List BC) : List BC → Except Unit (List BC)
  | [] => .ok s
  | c :: cs =>
    match pySetAdd s c with
    | .error e => .error e
    | .ok s' => pySetUpdate s' cs

/-- A constraint as accepted by `MultiConstraint.create`: a non-multi
constraint, or a `MultiConstraint` holding its member set. -/
inductive PConstraint where
  | base (b : BC)
  | multi (constraints : List BC)
deriving DecidableEq

/-- The flattening loop of `MultiConstraint.create`: a `None` input is
dropped, the member set of a `MultiConstraint` input is absorbed via
`set.update`, and any other constraint is added via `set.add`. -/
def createFlat (acc : List BC) : List (Option PConstraint) → Except Unit (List BC)
  | [] => .ok acc
  | none :: rest => createFlat acc rest
  | some (.multi cs) :: rest =>
    match pySetUpdate acc cs with
    | .error e => .error e
    | .ok acc' => createFlat acc' rest
  | some (.base b) :: rest =>
    match pySetAdd acc b with
    | .error e => .error e
    | .ok acc' => createFlat acc' rest

/-- `MultiConstraint.create`: flatten the optional inputs into one set,
then return the sole member of a singleton set, no constraint for an
empty set, and otherwise a `MultiConstraint` of the set. -/
def MultiConstraint.create (inputs : List (Option PConstraint)) :
    Except Unit (Option PConstraint) :=
  match createFlat [] inputs with
  | .error e => .error e
  | .ok [c] => .ok (some (.base c))
  | .ok [] => .ok none
  | .ok cs => .ok (some (.multi cs))

/-- `MultiConstraint.__eq__`: Python set equality of the two member
sets (mutual membership, order-irrelevant). -/
def multiConstraintEq (cs1 cs2 : List BC) : Bool :=
  cs1.all (fun c => cs2.contains c) && cs2.all (fun c => cs1.contains c)

/-- `MultiConstraint.__hash__`: `hash(self.constraints)` where
`self.constraints` is a plain set. -/
def multiConstraintHash (cs : List BC) : Except Unit Nat :=
  pySetHash cs

/-- `EqualVariablesConstraint._wrap_expr`: a value that is not a
sequence is wrapped into a one-element sequence before comparison. -/
def wrapExpr : Binding → List Expr
  | .single e => [e]
  | .seq es => es

/-- The comparison loop of `EqualVariablesConstraint.__call__`: each
remaining variable's wrapped value is compared against the first's;
`none` models the `KeyError` raised on a variable missing from the
substitution. -/
def evcLoop (vars : List String) (σ : Substitution) (v1 : List Expr) : Option Bool :=
  match vars with
  | [] => some true
  | v :: rest =>
    match slookup σ v with
    | none => none
    | some b => if wrapExpr b = v1 then evcLoop rest σ v1 else some false

/-- `EqualVariablesConstraint.__call__` on the constraint's variable set
(listed in its iteration order): holds when every variable's wrapped
value equals the first's; `none` models the `KeyError` raised when the
variable set is empty or a variable is missing from the substitution. -/
def equalVariablesCall (vars : List String) (σ : Substitution) : Option Bool :=
  match vars with
  | [] => none
  | v :: rest =>
    match slookup σ v with
    | none => none
    | some b => evcLoop rest σ (wrapExpr b)

/-- C5 (code bug): `MultiConstraint.create` crashes on an
`EqualVariablesConstraint` input — adding it to the flat set hashes it,
and `EqualVariablesConstraint.__hash__` hashes a plain set, raising
`TypeError` — instead of returning the sole constraint as claimed; on
hashable (predicate-backed) constraints the claimed drop-`None` /
flatten / singleton / empty behavior does hold. -/
theorem multiConstraintCreateTypeError :
    MultiConstraint.create [some (.base (.equalVariables ["x", "y"]))] = .error () ∧
    MultiConstraint.create
        [some (.base (.custom 1)), none, some (.multi [.custom 1, .custom 2])] =
      .ok (some (.multi [.custom 1, .custom 2])) ∧
    MultiConstraint.create [some (.base (.custom 1)), some (.base (.custom 1))] =
      .ok (some (.base (.custom 1))) ∧
    MultiConstraint.create [none] = .ok none := by
  refine ⟨rfl, rfl, rfl, rfl⟩

/-- C7 (code bug): `MultiConstraint.__eq__` is set-based and
order-irrelevant, but `MultiConstraint.__hash__` hashes the plain member
set and therefore raises `TypeError` instead of being well-defined. -/
theorem multiConstraintHashTypeError :
    multiConstraintEq [.custom 1, .custom 2] [.custom 2, .custom 1] = true ∧
    multiConstraintHash [.custom 1, .custom 2] = .error () := by
  exact ⟨rfl, rfl⟩

/-- C6 (counterexample): the constraint is not equivalent to pairwise
equality of the resolved values — a variable bound to the single
expression `a` and one bound to the one-element sequence `[a]` resolve
to unequal values, yet the constraint holds, because values are wrapped
before comparison. -/
theorem equalVariablesWrapCounterexample :
    equalVariablesCall ["x", "y"]
        [("x", .single (.sym "a")), ("y", .seq [.sym "a"])] = some true ∧
    slookup [("x", .single (.sym "a")), ("y", .seq [.sym "a"])] "x" ≠
      slookup [("x", .single (.sym "a")), ("y", .seq [.sym "a"])] "y" := by
  exact ⟨rfl, by decide⟩

/-- C10: wrapping makes a single binding and its singleton sequence
binding judged equal: for every expression `e`, an
`EqualVariablesConstraint` over two distinct names holds on the
substitution binding one of them to `e` and the other to `[e]`. -/
theorem equalVariablesSingletonWrap (e : Expr) (n1 n2 : String) (h : n1 ≠ n2) :
    equalVariablesCall [n1, n2] [(n1, .single e), (n2, .seq [e])] = some true := by
  simp [equalVariablesCall, slookup, wrapExpr, evcLoop, h]

/-- Witness for C10 at `e = a`, names `x` and `y`. -/
theorem equalVariablesSingletonWrap_witness :
    equalVariablesCall ["x", "y"]
        [("x", .single (.sym "a")), ("y", .seq [.sym "a"])] = some true :=
  equalVariablesSingletonWrap (.sym "a") "x" "y" (by decide)

theorem ccInitLoop_posOnly : ∀ (ps : List PyParam) (allowAny : Bool) (vars : List String),
    (∃ p ∈ ps, p.kind = .positionalOnly) →
    ccInitLoop allowAny vars ps = .error "constraint cannot have positional-only arguments" := by
  intro ps
  induction ps with
  | nil => intro _ _ h; simp at h
  | cons p rest ih =>
    intro allowAny vars h
    rcases h with ⟨q, hq, hkind⟩
    rcases List.mem_cons.mp hq with hq | hq
    · subst hq
      simp [ccInitLoop, hkind]
    · cases hp : p.kind <;> simp [ccInitLoop, hp] <;> exact ih _ _ ⟨q, hq, hkind⟩

theorem ccInitLoop_ok : ∀ (ps : List PyParam) (allowAny : Bool) (vars : List String),
    (∀ p ∈ ps, p.kind = .positionalOrKeyword ∨ p.kind = .keywordOnly ∨ p.kind = .varKeyword) →
    ∃ r, ccInitLoop allowAny vars ps = .ok r := by
  intro ps
  induction ps with
  | nil => intro a v _; exact ⟨(a, v), rfl⟩
  | cons p rest ih =>
    intro a v h
    have hrest : ∀ q ∈ rest, q.kind = .positionalOrKeyword ∨ q.kind = .keywordOnly ∨ q.kind = .varKeyword :=
      fun q hq => h q (List.mem_cons_of_mem p hq)
    rcases h p (List.mem_cons_self p rest) with hp | hp | hp <;>
      simp only [ccInitLoop, hp] <;> exact ih _ _ hrest

/-- C4: constructing a `CustomConstraint` from a predicate with a
positional-only parameter raises `ValueError` at construction time;
predicates whose parameters are all positional-or-keyword, keyword-only
or var-keyword are accepted. -/
theorem customConstraintPositionalOnly (params : List PyParam) :
    ((∃ p ∈ params, p.kind = .positionalOnly) →
      customConstraintInit params = .error "constraint cannot have positional-only arguments") ∧
    ((∀ p ∈ params, p.kind = .positionalOrKeyword ∨ p.kind = .keywordOnly ∨ p.kind = .varKeyword) →
      ∃ r, customConstraintInit params = .ok r) :=
  ⟨fun h => ccInitLoop_posOnly params false [] h, fun h => ccInitLoop_ok params false [] h⟩

/-- Witness for C4: a one-parameter positional-only predicate is
rejected and a positional-or-keyword / var-keyword predicate is
accepted. -/
theorem customConstraintPositionalOnly_witness :
    customConstraintInit [⟨"x", .positionalOnly⟩] =
      .error "constraint cannot have positional-only arguments" ∧
    ∃ r, customConstraintInit [⟨"x", .positionalOrKeyword⟩, ⟨"kw", .varKeyword⟩] = .ok r :=
  ⟨(customConstraintPositionalOnly [⟨"x", .positionalOnly⟩]).1 ⟨⟨"x", .positionalOnly⟩, by decide, rfl⟩,
   (customConstraintPositionalOnly [⟨"x", .positionalOrKeyword⟩, ⟨"kw", .varKeyword⟩]).2 (by decide)⟩

theorem evcLoop_iff : ∀ (rest : List String) (σ : Substitution) (v1 : List Expr),
    (∀ v ∈ rest, (slookup σ v).isSome = true) →
    (evcLoop rest σ v1 = some true ↔ ∀ v ∈ rest, (slookup σ v).map wrapExpr = some v1) := by
  intro rest
  induction rest with
  | nil => intro σ v1 _; simp [evcLoop]
  | cons v rest ih =>
    intro σ v1 h
    have hv := h v (List.mem_cons_self v rest)
    have hrest := fun q hq => h q (List.mem_cons_of_mem v hq)
    rcases hb : slookup σ v with _ | b
    · rw [hb] at hv; simp at hv
    · by_cases hw : wrapExpr b = v1
      · simp [evcLoop, hb, hw, ih σ v1 hrest]
      · simp [evcLoop, hb, hw]

/-- C6 (amended: equality is judged on wrapped values): for a nonempty
variable list all of whose names are bound, the
`EqualVariablesConstraint` holds if and only if the wrapped values of
the named variables are pairwise equal. -/
theorem equalVariablesPairwiseWrapped (vars : List String) (σ : Substitution)
    (hne : vars ≠ []) (hall : ∀ v ∈ vars, (slookup σ v).isSome = true) :
    equalVariablesCall vars σ = some true ↔
      ∀ u ∈ vars, ∀ v ∈ vars,
        (slookup σ u).map wrapExpr = (slookup σ v).map wrapExpr := by
  cases vars with
  | nil => exact absurd rfl hne
  | cons v0 rest =>
    have hv0 := hall v0 (List.mem_cons_self v0 rest)
    have hrest := fun q hq => hall q (List.mem_cons_of_mem v0 hq)
    rcases hb : slookup σ v0 with _ | b0
    · rw [hb] at hv0; simp at hv0
    · rw [show equalVariablesCall (v0 :: rest) σ = evcLoop rest σ (wrapExpr b0) by
        simp [equalVariablesCall, hb]]
      rw [evcLoop_iff rest σ (wrapExpr b0) hrest]
      constructor
      · intro h u hu v hv
        have get : ∀ w ∈ v0 :: rest, (slookup σ w).map wrapExpr = some (wrapExpr b0) := by
          intro w hw
          rcases List.mem_cons.mp hw with hw | hw
          · subst hw; rw [hb]; rfl
          · exact h w hw
        rw [get u hu, get v hv]
      · intro h w hw
        have := h w (List.mem_cons_of_mem v0 hw) v0 (List.mem_cons_self v0 rest)
        rw [this, hb]; rfl

/-- Witness for C6 at a two-variable constraint with both variables
bound to the symbol `a`. -/
theorem equalVariablesPairwiseWrapped_witness :
    equalVariablesCall ["x", "y"]
        [("x", .single (.sym "a")), ("y", .single (.sym "a"))] = some true ↔
      ∀ u ∈ ["x", "y"], ∀ v ∈ ["x", "y"],
        (slookup [("x", Binding.single (.sym "a")), ("y", Binding.single (.sym "a"))] u).map wrapExpr =
          (slookup [("x", Binding.single (.sym "a")), ("y", Binding.single (.sym "a"))] v).map wrapExpr :=
  equalVariablesPairwiseWrapped ["x", "y"]
    [("x", .single (.sym "a")), ("y", .single (.sym "a"))] (by decide) (by decide)

mutual

theorem substitute_unbound : ∀ (e : Expr) (σ : Substitution),
    (namedVars e).all (fun n => (slookup σ n).isNone) = true →
    substitute e σ = (.single e, false)
  | .sym _, _ => fun _ => rfl
  | .wc none _, _ => fun _ => rfl
  | .wc (some n) k, σ => fun h => by
    simp [namedVars] at h
    rcases hb : slookup σ n with _ | b
    · simp [substitute, hb]
    · rw [hb] at h; simp at h
  | .op m args, σ => fun h => by
    have he := substituteList_unbound args σ (by simpa [namedVars] using h)
    simp [substitute, he]

theorem substituteList_unbound : ∀ (ps : List Expr) (σ : Substitution),
    (namedVarsList ps).all (fun n => (slookup σ n).isNone) = true →
    substituteList ps σ = (ps, false)
  | [], _ => fun _ => rfl
  | p :: rest, σ => fun h => by
    rw [namedVarsList, List.all_append, Bool.and_eq_true] at h
    have e1 := substitute_unbound p σ h.1
    have e2 := substituteList_unbound rest σ h.2
    simp [substituteList, e1, e2, spliceResult]

end

mutual

theorem substitute_did : ∀ (e : Expr) (σ : Substitution),
    (substitute e σ).2 = (namedVars e).any (fun n => (slookup σ n).isSome)
  | .sym _, _ => by simp [substitute, namedVars]
  | .wc none _, _ => by simp [substitute, namedVars]
  | .wc (some n) k, σ => by
    rcases hb : slookup σ n with _ | b
    · simp [substitute, hb, namedVars]
    · cases b <;> simp [substitute, hb, namedVars]
  | .op m args, σ => by
    have he := substituteList_did args σ
    rcases hr : substituteList args σ with ⟨rs, d⟩
    rw [hr] at he
    cases d <;> simp [substitute, hr, namedVars] <;> simp at he <;> exact he

theorem substituteList_did : ∀ (ps : List Expr) (σ : Substitution),
    (substituteList ps σ).2 = (namedVarsList ps).any (fun n => (slookup σ n).isSome)
  | [], _ => by simp [substituteList, namedVarsList]
  | p :: rest, σ => by
    simp [substituteList, namedVarsList, List.any_append,
      substitute_did p σ, substituteList_did rest σ]

end

mutual

theorem substitute_noreplace : ∀ (e : Expr) (σ : Substitution),
    (substitute e σ).2 = false → (substitute e σ).1 = .single e
  | .sym _, _ => fun _ => rfl
  | .wc none _, _ => fun _ => rfl
  | .wc (some n) k, σ => fun h => by
    rcases hb : slookup σ n with _ | b
    · simp [substitute, hb]
    · cases b <;> simp [substitute, hb] at h
  | .op m args, σ => fun h => by
    rcases hr : substituteList args σ with ⟨rs, d⟩
    cases d
    · simp [substitute, hr]
    · simp [substitute, hr] at h

theorem substituteList_noreplace : ∀ (ps : List Expr) (σ : Substitution),
    (substituteList ps σ).2 = false → (substituteList ps σ).1 = ps
  | [], _ => fun _ => rfl
  | p :: rest, σ => fun h => by
    simp only [substituteList, Bool.or_eq_false_iff] at h ⊢
    have e1 := substitute_noreplace p σ h.1
    have e2 := substituteList_noreplace rest σ h.2
    simp [e1, e2, spliceResult]

end

theorem containsL_append (t : Expr) (xs ys : List Expr) :
    containsL t (xs ++ ys) = (containsL t xs || containsL t ys) := by
  induction xs with
  | nil => simp [containsL]
  | cons x xs ih => simp [containsL, ih, Bool.or_assoc]

mutual

theorem substitute_contains : ∀ (e : Expr) (σ : Substitution) (n : String) (k : WKind),
    slookup σ n = none → containsE (.wc (some n) k) e = true →
    containsL (.wc (some n) k) (spliceResult (substitute e σ).1) = true
  | .sym _, _, _, _ => fun _ hc => by simp [containsE] at hc
  | .wc none _, _, _, _ => fun _ hc => by simp [containsE] at hc
  | .wc (some m) k', σ, n, k => fun hn hc => by
    simp [containsE] at hc
    obtain ⟨hm, hk⟩ := hc
    subst hm; subst hk
    simp [substitute, hn, spliceResult, containsL, containsE]
  | .op m args, σ, n, k => fun hn hc => by
    simp [containsE] at hc
    have hsub := substituteList_contains args σ n k hn hc
    rcases hr : substituteList args σ with ⟨rs, d⟩
    rw [hr] at hsub
    cases d
    · simp [substitute, hr, spliceResult, containsL, containsE, hc]
    · simp [substitute, hr, spliceResult, containsL, containsE, hsub]

theorem substituteList_contains : ∀ (ps : List Expr) (σ : Substitution) (n : String) (k : WKind),
    slookup σ n = none → containsL (.wc (some n) k) ps = true →
    containsL (.wc (some n) k) (substituteList ps σ).1 = true
  | [], _, _, _ => fun _ hc => by simp [containsL] at hc
  | p :: rest, σ, n, k => fun hn hc => by
    rw [containsL, Bool.or_eq_true] at hc
    simp only [substituteList, containsL_append, Bool.or_eq_true]
    rcases hc with hc | hc
    · exact Or.inl (substitute_contains p σ n k hn hc)
    · exact Or.inr (substituteList_contains rest σ n k hn hc)

end

/-- C8: a substitution that binds none of the named variables of an
expression replaces nothing: `substitute` returns the original
expression itself with `did_replace = false`. -/
theorem substituteNoOpIdentity (e : Expr) (σ : Substitution)
    (h : (namedVars e).all (fun n => (slookup σ n).isNone) = true) :
    substitute e σ = (.single e, false) :=
  substitute_unbound e σ h

/-- Witness for C8: `substitute(f(a), {})` returns the original `f(a)`
with `did_replace = false`. -/
theorem substituteNoOpIdentity_witness :
    substitute (.op "f" [.sym "a"]) [] = (.single (.op "f" [.sym "a"]), false) :=
  substituteNoOpIdentity (.op "f" [.sym "a"]) [] (by decide)

/-- C9: applying a substitution to an expression containing a variable
with no entry does not fail: `did_replace` is true exactly when some
named variable of the expression is bound (so it reflects whether
anything else was replaced), every occurrence of the unbound variable
survives in the result, and the unbound variable itself is returned
structurally unchanged with `did_replace = false`. -/
theorem substituteUnboundVariable (e : Expr) (σ : Substitution) (n : String) (k : WKind)
    (hn : slookup σ n = none) (hc : containsE (.wc (some n) k) e = true) :
    (substitute e σ).2 = (namedVars e).any (fun m => (slookup σ m).isSome) ∧
    containsL (.wc (some n) k) (spliceResult (substitute e σ).1) = true ∧
    substitute (.wc (some n) k) σ = (.single (.wc (some n) k), false) :=
  ⟨substitute_did e σ, substitute_contains e σ n k hn hc, by simp [substitute, hn]⟩

/-- Witness for C9 at `e = f(y_, x_)` and the substitution `{x: b}`:
`y` is unbound, the substituted result still contains `y_`, and
`substitute(y_, {x: b})` returns `y_` unchanged. -/
theorem substituteUnboundVariable_witness :
    (substitute (.op "f" [.wc (some "y") .dot, .wc (some "x") .dot])
        [("x", .single (.sym "b"))]).2 =
      (namedVars (.op "f" [.wc (some "y") .dot, .wc (some "x") .dot])).any
        (fun m => (slookup [("x", Binding.single (.sym "b"))] m).isSome) ∧
    containsL (.wc (some "y") .dot)
      (spliceResult (substitute (.op "f" [.wc (some "y") .dot, .wc (some "x") .dot])
        [("x", .single (.sym "b"))]).1) = true ∧
    substitute (.wc (some "y") .dot) [("x", .single (.sym "b"))] =
      (.single (.wc (some "y") .dot), false) :=
  substituteUnboundVariable (.op "f" [.wc (some "y") .dot, .wc (some "x") .dot])
    [("x", .single (.sym "b"))] "y" .dot (by decide) (by decide)

/-- `σ'` extends `σ`: every binding of `σ` is present in `σ'`. -/
def ExtendsS (σ σ' : Substitution) : Prop :=
  ∀ (n : String) (b : Binding), slookup σ n = some b → slookup σ' n = some b

theorem extendsS_refl (σ : Substitution) : ExtendsS σ σ := fun _ _ h => h

theorem extendsS_trans {σ1 σ2 σ3 : Substitution}
    (h1 : ExtendsS σ1 σ2) (h2 : ExtendsS σ2 σ3) : ExtendsS σ1 σ3 :=
  fun n b h => h2 n b (h1 n b h)

theorem slookup_append_of_some {σ : Substitution} {m : String} {c : Binding}
    (nb : String × Binding) (h : slookup σ m = some c) :
    slookup (σ ++ [nb]) m = some c := by
  induction σ with
  | nil => simp [slookup] at h
  | cons p σ ih =>
    rcases p with ⟨pn, pb⟩
    by_cases hpm : pn = m
    · simp [slookup, hpm] at h ⊢; exact h
    · simp [slookup, hpm] at h ⊢; exact ih h

theorem slookup_append_self {σ : Substitution} {n : String} (b : Binding)
    (h : slookup σ n = none) : slookup (σ ++ [(n, b)]) n = some b := by
  induction σ with
  | nil => simp [slookup]
  | cons p σ ih =>
    rcases p with ⟨pn, pb⟩
    by_cases hpm : pn = n
    · simp [slookup, hpm] at h
    · simp [slookup, hpm] at h ⊢; exact ih h

theorem extend_some {σ σ' : Substitution} {n : String} {b : Binding}
    (h : extend σ n b = some σ') : ExtendsS σ σ' ∧ slookup σ' n = some b := by
  rw [extend] at h
  rcases hl : slookup σ n with _ | b' <;> rw [hl] at h
  · simp at h
    obtain rfl := h
    exact ⟨fun m c hc => slookup_append_of_some (n, b) hc, slookup_append_self b hl⟩
  · by_cases hbb : b' = b
    · simp [hbb] at h
      obtain rfl := h
      rw [hbb] at hl
      exact ⟨extendsS_refl _, hl⟩
    · simp [hbb] at h

theorem mem_listJoinMap {α β : Type} {f : α → List β} {b : β} {l : List α} :
    b ∈ listJoinMap f l ↔ ∃ a ∈ l, b ∈ f a := by
  induction l with
  | nil => simp [listJoinMap]
  | cons x xs ih => simp [listJoinMap, ih, List.mem_append]

theorem mkBinding_plus (span : List Expr) : mkBinding .plus span = .seq span := by
  cases span <;> rfl

theorem mkBinding_star (span : List Expr) : mkBinding .star span = .seq span := by
  cases span <;> rfl

mutual

theorem matchOne_sound : ∀ (p e : Expr) (σ σ' : Substitution),
    allNamed p = true → σ' ∈ matchOne e p σ →
    ExtendsS σ σ' ∧
      ∀ (σ'' : Substitution), ExtendsS σ' σ'' →
        spliceResult (substitute p σ'').1 = [e]
  | .sym m, e, σ, σ' => fun _ hm => by
    cases e with
    | sym m' =>
      simp only [matchOne] at hm
      by_cases hmm : m' = m
      · rw [if_pos hmm] at hm
        simp at hm
        obtain rfl := hm
        subst hmm
        exact ⟨extendsS_refl _, fun σ'' _ => rfl⟩
      · rw [if_neg hmm] at hm; simp at hm
    | op m' eargs => simp [matchOne] at hm
    | wc nm kk => simp [matchOne] at hm
  | .op m pargs, e, σ, σ' => fun hn hm => by
    cases e with
    | sym m' => simp [matchOne] at hm
    | wc nm kk => simp [matchOne] at hm
    | op m' eargs =>
      simp only [matchOne] at hm
      by_cases hmm : m' = m
      · rw [if_pos hmm] at hm
        subst hmm
        have hn' : allNamedList pargs = true := by simpa [allNamed] using hn
        obtain ⟨ext, hsub⟩ := matchSeq_sound pargs eargs σ σ' hn' hm
        refine ⟨ext, ?_⟩
        intro σ'' hσ''
        have h1 := hsub σ'' hσ''
        rcases hr : substituteList pargs σ'' with ⟨rs, d⟩
        rw [hr] at h1
        simp at h1
        cases d
        · have h2 := substituteList_noreplace pargs σ'' (by rw [hr])
          rw [hr] at h2
          simp at h2
          have key : eargs = pargs := h1 ▸ h2
          subst key
          simp [substitute, hr, spliceResult]
        · simp [substitute, hr, spliceResult, h1]
      · rw [if_neg hmm] at hm; simp at hm
  | .wc none kk, e, σ, σ' => fun hn _ => by simp [allNamed] at hn
  | .wc (some n) kk, e, σ, σ' => fun _ hm => by
    simp only [matchOne] at hm
    rcases hext : extend σ n (mkBinding kk [e]) with _ | σ1 <;> rw [hext] at hm
    · simp at hm
    · simp at hm
      obtain rfl := hm
      obtain ⟨ext0, hlook⟩ := extend_some hext
      refine ⟨ext0, ?_⟩
      intro σ'' hσ''
      have hlook'' := hσ'' n _ hlook
      cases kk
      · simp only [mkBinding] at hlook''
        simp [substitute, hlook'', spliceResult]
      · rw [mkBinding_plus] at hlook''
        simp [substitute, hlook'', spliceResult]
      · rw [mkBinding_star] at hlook''
        simp [substitute, hlook'', spliceResult]

theorem matchSeq_sound : ∀ (ps es : List Expr) (σ σ' : Substitution),
    allNamedList ps = true → σ' ∈ matchSeq es ps σ →
    ExtendsS σ σ' ∧
      ∀ (σ'' : Substitution), ExtendsS σ' σ'' →
        (substituteList ps σ'').1 = es
  | [], es, σ, σ' => fun _ hm => by
    cases es with
    | nil =>
      simp [matchSeq] at hm
      obtain rfl := hm
      exact ⟨extendsS_refl _, fun σ'' _ => rfl⟩
    | cons e es' => simp [matchSeq] at hm
  | .wc name kk :: ps', es, σ, σ' => fun hn hm => by
    simp only [matchSeq] at hm
    rw [mem_listJoinMap] at hm
    obtain ⟨ℓ, hℓmem, hℓ⟩ := hm
    by_cases hle : ℓ ≤ es.length
    · rw [if_pos hle] at hℓ
      cases name with
      | none => simp [allNamedList, allNamed] at hn
      | some n =>
        simp only [] at hℓ
        rcases hext : extend σ n (mkBinding kk (es.take ℓ)) with _ | σmid <;>
          rw [hext] at hℓ <;> simp only [] at hℓ
        · simp at hℓ
        · have hn' : allNamedList ps' = true := by
            simpa [allNamedList, allNamed] using hn
          obtain ⟨ext1, hsub⟩ := matchSeq_sound ps' (es.drop ℓ) σmid σ' hn' hℓ
          obtain ⟨ext0, hlook⟩ := extend_some hext
          refine ⟨extendsS_trans ext0 ext1, ?_⟩
          intro σ'' hσ''
          have hlook'' : slookup σ'' n = some (mkBinding kk (es.take ℓ)) :=
            hσ'' n _ (ext1 n _ hlook)
          have tail := hsub σ'' hσ''
          have head : spliceResult (substitute (.wc (some n) kk) σ'').1 = es.take ℓ := by
            cases kk
            · have hℓ1 : ℓ = 1 := by simpa [spanLengths] using hℓmem
              subst hℓ1
              cases es with
              | nil => simp at hle
              | cons e es'' =>
                simp only [List.take] at hlook'' ⊢
                simp only [mkBinding] at hlook''
                simp [substitute, hlook'', spliceResult]
            · rw [mkBinding_plus] at hlook''
              simp [substitute, hlook'', spliceResult]
            · rw [mkBinding_star] at hlook''
              simp [substitute, hlook'', spliceResult]
          calc (substituteList (.wc (some n) kk :: ps') σ'').1
              = spliceResult (substitute (.wc (some n) kk) σ'').1 ++
                  (substituteList ps' σ'').1 := rfl
            _ = es.take ℓ ++ es.drop ℓ := by rw [head, tail]
            _ = es := List.take_append_drop ℓ es
    · rw [if_neg hle] at hℓ
      simp at hℓ
  | .sym m :: ps', es, σ, σ' => fun hn hm => by
    cases es with
    | nil => simp [matchSeq] at hm
    | cons e es' =>
      simp only [matchSeq] at hm
      rw [mem_listJoinMap] at hm
      obtain ⟨σ1, hσ1, hσ'⟩ := hm
      rw [allNamedList, Bool.and_eq_true] at hn
      obtain ⟨exta, hsa⟩ := matchOne_sound (.sym m) e σ σ1 hn.1 hσ1
      obtain ⟨extb, hsb⟩ := matchSeq_sound ps' es' σ1 σ' hn.2 hσ'
      refine ⟨extendsS_trans exta extb, ?_⟩
      intro σ'' hσ''
      have h1 := hsa σ'' (extendsS_trans extb hσ'')
      have h2 := hsb σ'' hσ''
      calc (substituteList (.sym m :: ps') σ'').1
          = spliceResult (substitute (.sym m) σ'').1 ++ (substituteList ps' σ'').1 := rfl
        _ = [e] ++ es' := by rw [h1, h2]
        _ = e :: es' := rfl
  | .op m pargs :: ps', es, σ, σ' => fun hn hm => by
    cases es with
    | nil => simp [matchSeq] at hm
    | cons e es' =>
      simp only [matchSeq] at hm
      rw [mem_listJoinMap] at hm
      obtain ⟨σ1, hσ1, hσ'⟩ := hm
      rw [allNamedList, Bool.and_eq_true] at hn
      obtain ⟨exta, hsa⟩ := matchOne_sound (.op m pargs) e σ σ1 hn.1 hσ1
      obtain ⟨extb, hsb⟩ := matchSeq_sound ps' es' σ1 σ' hn.2 hσ'
      refine ⟨extendsS_trans exta extb, ?_⟩
      intro σ'' hσ''
      have h1 := hsa σ'' (extendsS_trans extb hσ'')
      have h2 := hsb σ'' hσ''
      calc (substituteList (.op m pargs :: ps') σ'').1
          = spliceResult (substitute (.op m pargs) σ'').1 ++ (substituteList ps' σ'').1 := rfl
        _ = [e] ++ es' := by rw [h1, h2]
        _ = e :: es' := rfl

end

/-- C1 (counterexample): the round-trip fails for a pattern with an
unnamed wildcard — the constant `a` matches the plain dot wildcard with
the empty substitution, but substituting the empty substitution back
into the wildcard pattern returns the wildcard, not `a`. -/
theorem roundTripUnnamedWildcard :
    isConstant (.sym "a") = true ∧
    matchExpr (.sym "a") (.wc none .dot) = [[]] ∧
    flattenResult (substitute (.wc none .dot) []).1 ≠ .single (.sym "a") := by
  refine ⟨rfl, rfl, by decide⟩

/-- C1 (amended: every wildcard of the pattern is named): for every
constant expression `e` and pattern `p` all of whose wildcards are
named, every substitution yielded by `match(e, p)` reconstructs `e`:
`substitute(p, s)`, with a one-element sequence result flattened to its
sole element, is structurally equal to `e` (the modelled fragment has no
commutative operations, so structural equality is ordered equality). -/
theorem matchSubstituteRoundTrip (e p : Expr) (σ : Substitution)
    (hc : isConstant e = true) (hn : allNamed p = true) (hm : σ ∈ matchExpr e p) :
    flattenResult (substitute p σ).1 = .single e := by
  obtain ⟨_, hs⟩ := matchOne_sound p e [] σ hn hm
  have h1 := hs σ (extendsS_refl σ)
  rcases hr : (substitute p σ).1 with e' | es <;> rw [hr] at h1
  · simp [spliceResult] at h1
    simp [flattenResult, h1]
  · simp [spliceResult] at h1
    rw [h1]
    rfl

/-- Witness for C1 at `e = f(a)`, `p = f(x_)`, `s = {x: a}`. -/
theorem matchSubstituteRoundTrip_witness :
    isConstant (.op "f" [.sym "a"]) = true ∧
    allNamed (.op "f" [.wc (some "x") .dot]) = true ∧
    [("x", Binding.single (.sym "a"))] ∈
      matchExpr (.op "f" [.sym "a"]) (.op "f" [.wc (some "x") .dot]) ∧
    flattenResult (substitute (.op "f" [.wc (some "x") .dot])
        [("x", .single (.sym "a"))]).1 = .single (.op "f" [.sym "a"]) :=
  ⟨by decide, by decide, by decide,
   matchSubstituteRoundTrip (.op "f" [.sym "a"]) (.op "f" [.wc (some "x") .dot])
     [("x", .single (.sym "a"))] (by decide) (by decide) (by decide)⟩
